import Mathlib

/-!
Shallow embedding of `serialization++.h`: a reflection-driven serialization
framework.  A composite type attaches a compile-time Property List (an ordered
tuple of `Property{member, name}` descriptors); `serialize`/`deserialize`
walk that list via template recursion from tuple index `N-1` down to `0`,
delegating each field to a `JsonArchive` keyed by the descriptor's name.

The model:
* `Ty` is the static-type universe reachable through the Property List
  mechanism: `int`, `std::string`, and composite types.  A composite type
  carries the list of its member field types (`members`, indexed by position,
  mirroring distinct member pointers) and its Property List `props`, whose
  entries are `(name, member index, declared field type)` triples mirroring
  `Property<Class, T>{member, name}` with `Type = T`.
* `Value` is a runtime value: a leaf or an object given by its member slots.
* `JSON` models the value tree of the external `json.hpp` dependency (which
  is not part of this repository's sources); its keyed get/set, scalar
  coercions and the hard failure of `.at` on a missing key are modelled from
  the spec's description of that collaborator (sections 4.5, 6 and 7).
-/

/-- Model of the external `json.hpp` value tree: null (a default-constructed
`json::JSON`), integer and string scalars, and objects as association lists
of entries keyed by name. -/
inductive JSON where
  | JNull : JSON
  | JInt : Int → JSON
  | JStr : String → JSON
  | JObj : List (String × JSON) → JSON

/-- Static types reachable through the Property List mechanism: `int`,
`std::string`, and composite (serializable) types.  `tComp members props`
carries the member field types in declaration position order and the
Property List as `(name, member index, declared field type)` triples. -/
inductive Ty where
  | tInt : Ty
  | tStr : Ty
  | tComp : List Ty → List (String × Nat × Ty) → Ty

/-- Runtime values: an `int`, a `std::string`, or an object represented by
its member slots in position order. -/
inductive Value where
  | vInt : Int → Value
  | vStr : String → Value
  | vObj : List Value → Value

/-- Modelled from the spec: keyed set on a JSON object node
(`storage[name] = v`): overwrite the entry at the key if present, otherwise
append a new entry. -/
def setKey : List (String × JSON) → String → JSON → List (String × JSON)
  | [], k, v => [(k, v)]
  | (k', v') :: rest, k, v =>
      if k' = k then (k, v) :: rest else (k', v') :: setKey rest k v

/-- Modelled from the spec: keyed lookup on a JSON object node. -/
def lookupKey : List (String × JSON) → String → Option JSON
  | [], _ => none
  | (k', v') :: rest, k => if k' = k then some v' else lookupKey rest k

/-- Modelled from the spec: `storage[name] = v` on a whole JSON value; a
non-object node (such as the null a fresh `json::JSON` holds) becomes an
object with the single new entry. -/
def jsonSet : JSON → String → JSON → JSON
  | .JObj es, k, v => .JObj (setKey es k v)
  | _, k, v => .JObj [(k, v)]

/-- Modelled from the spec: `storage.at(name)` — the value-tree lookup whose
failure on a missing key (or on a non-object node) is a hard failure,
modelled as `none`. -/
def jsonAt : JSON → String → Option JSON
  | .JObj es, k => lookupKey es k
  | .JNull, _ => none
  | .JInt _, _ => none
  | .JStr _, _ => none

/-- Member access `object.*member` presupposes an object value; the source is
statically typed, so the non-object branches are unreachable there. -/
def slotsOf : Value → List Value
  | .vObj slots => slots
  | .vInt _ => []
  | .vStr _ => []

/-- Reading member slot `i` of an object (`object.*(property.member)`). -/
def getSlot (slots : List Value) (i : Nat) : Value :=
  slots.getD i (.vInt 0)

/-- Writing member slot `i` of an object
(`object.*(property.member) = value`). -/
def setSlot (slots : List Value) (i : Nat) (v : Value) : List Value :=
  slots.set i v

mutual
/-- Default construction `T result;`: ints and strings take their default
leaf value (never observed by round trips, which overwrite every listed
field), composites default-construct every member slot. -/
def defaultVal : Ty → Value
  | .tInt => .vInt 0
  | .tStr => .vStr ""
  | .tComp members _ => .vObj (defaultList members)

def defaultList : List Ty → List Value
  | [] => []
  | t :: ts => defaultVal t :: defaultList ts
end

mutual
/-- JsonArchive::store dispatch on the static field type: a serializable
(composite) field stores `serialize(value).getStorage()`, a primitive field
stores the leaf value directly.  The non-matching leaf branches are
statically unreachable in the source. -/
def storeVal : Ty → Value → JSON
  | .tInt, .vInt n => .JInt n
  | .tInt, .vStr _ => .JNull
  | .tInt, .vObj _ => .JNull
  | .tStr, .vStr s => .JStr s
  | .tStr, .vInt _ => .JNull
  | .tStr, .vObj _ => .JNull
  | .tComp _ props, v => getData props (slotsOf v) .JNull
termination_by ty _ => sizeOf ty
decreasing_by all_goals (simp_wf <;> omega)

/-- detail::getData / doGetData: template recursion from tuple index `N-1`
down to `0`; each step does `archive.store<Type>(property.name,
object.*(property.member))`.  The list head (index 0) is therefore stored
last, which is expressed here by applying the head's store on top of the
result of storing the tail. -/
def getData : List (String × Nat × Ty) → List Value → JSON → JSON
  | [], _, st => st
  | (name, i, ty) :: rest, slots, st =>
      jsonSet (getData rest slots st) name (storeVal ty (getSlot slots i))
termination_by props _ _ => sizeOf props
decreasing_by all_goals (simp_wf <;> omega)
end

/-- serialization::serialize for a composite type: a fresh archive (whose
storage is a default-constructed, null JSON value) populated by
`detail::getData` over the whole Property List. -/
def serialize (props : List (String × Nat × Ty)) (slots : List Value) : JSON :=
  getData props slots .JNull

mutual
/-- JsonArchive::retrieve: `storage.at(name)` followed by the per-type
conversion of the found sub-tree. -/
def retrieveVal : Ty → JSON → String → Option Value
  | ty, st, name => (jsonAt st name).bind (jsonToVal ty)
termination_by ty _ _ => (sizeOf ty, 1)
decreasing_by all_goals (simp_wf <;> omega)

/-- Conversion of the JSON found at a key.  For `int` and `std::string` this
is the scalar coercion (`ToInt`/`ToString`), whose failure on a value of the
wrong shape is a hard failure per the spec's error model; for a composite
type it is `T result; archive.setStorage(found); deserialize(archive,
result); return result;`, i.e. `detail::setData` over the Property List on a
default-constructed object. -/
def jsonToVal : Ty → JSON → Option Value
  | .tInt, .JInt n => some (.vInt n)
  | .tInt, .JNull => none
  | .tInt, .JStr _ => none
  | .tInt, .JObj _ => none
  | .tStr, .JStr s => some (.vStr s)
  | .tStr, .JNull => none
  | .tStr, .JInt _ => none
  | .tStr, .JObj _ => none
  | .tComp members props, j => (setData props j (defaultList members)).map .vObj
termination_by ty _ => (sizeOf ty, 0)
decreasing_by all_goals (simp_wf <;> omega)

/-- detail::setData / doSetData: template recursion from tuple index `N-1`
down to `0`; each step does `object.*(property.member) =
archive.retrieve<Type>(property.name)`.  The list head (index 0) is written
last; a hard failure of any retrieve propagates (`none`). -/
def setData : List (String × Nat × Ty) → JSON → List Value → Option (List Value)
  | [], _, obj => some obj
  | (name, i, ty) :: rest, st, obj =>
      (setData rest st obj).bind fun obj' =>
        (retrieveVal ty st name).map fun v => setSlot obj' i v
termination_by props _ _ => (sizeOf props, 0)
decreasing_by all_goals (simp_wf <;> omega)
end

/-- serialization::deserialize: `detail::setData` over the whole Property
List, then `return true` — the returned boolean is the constant `true`; the
only failure channel is the propagated hard failure. -/
def deserialize (props : List (String × Nat × Ty)) (st : JSON)
    (obj : List Value) : Option (List Value × Bool) :=
  (setData props st obj).map fun o => (o, true)

/-- JsonArchive::store at archive level: `storage[name] = ...` with the
per-type dispatch of `storeVal`. -/
def archStore (st : JSON) (name : String) (ty : Ty) (v : Value) : JSON :=
  jsonSet st name (storeVal ty v)

/-- Temporal order of the names passed to `archive.store` by
`detail::getData`, which recurses from tuple index `N-1` down to `0`: the
head descriptor (index 0) is visited last. -/
def getDataOrder : List (String × Nat × Ty) → List String
  | [] => []
  | (name, _, _) :: rest => getDataOrder rest ++ [name]

/-- Temporal order of the names passed to `archive.retrieve` by
`detail::setData`, which recurses from tuple index `N-1` down to `0`: the
head descriptor (index 0) is visited last. -/
def setDataOrder : List (String × Nat × Ty) → List String
  | [] => []
  | (name, _, _) :: rest => setDataOrder rest ++ [name]

/-- JsonArchive::saveToFile: opens an output stream on the path, writes the
printed storage, closes the stream, and returns `true`.  The I/O effect is
modelled by the written content (`none` when the path is unwritable); the
returned boolean is the constant `true` exactly as in the source, which
never inspects the stream state. -/
def saveToFile (writable : Bool) (storage : JSON) : Option JSON × Bool :=
  ((if writable then some storage else none), true)

/-- JsonArchive::loadFromFile: reads the whole file (the empty string when
the path is unreadable), parses it into the storage, and returns `true`.
Parsing the empty string yields the null JSON value; the returned boolean is
the constant `true` exactly as in the source. -/
def loadFromFile (readable : Bool) (content : JSON) : JSON × Bool :=
  ((if readable then content else .JNull), true)

/-- Boolean distinctness of a list of keys (duplicate Property names are a
programmer error per the spec's data model). -/
def nodupB [BEq α] : List α → Bool
  | [] => true
  | x :: rest => (!rest.contains x) && nodupB rest

mutual
/-- Well-formedness of a type per the spec's data model: a composite type
has a non-empty Property List (an empty property tuple makes the source's
`tuple_size - 1` template index ill-formed), pairwise distinct descriptor
names, one descriptor per member field (distinct member indices), every
member index in range, and well-formed field types. -/
def WFTy : Ty → Bool
  | .tInt => true
  | .tStr => true
  | .tComp members props =>
      !props.isEmpty
        && nodupB (props.map fun p => p.1)
        && nodupB (props.map fun p => p.2.1)
        && WFProps members.length props
termination_by ty => sizeOf ty
decreasing_by all_goals (simp_wf <;> omega)

def WFProps : Nat → List (String × Nat × Ty) → Bool
  | _, [] => true
  | n, (_, i, ty) :: rest => decide (i < n) && WFTy ty && WFProps n rest
termination_by _ props => sizeOf props
decreasing_by all_goals (simp_wf <;> omega)
end

mutual
/-- A value agrees with a static type when it is a leaf of the right kind,
respectively an object with one slot per member field whose listed slots
agree with the declared field types. -/
def Agree : Ty → Value → Bool
  | .tInt, .vInt _ => true
  | .tInt, .vStr _ => false
  | .tInt, .vObj _ => false
  | .tStr, .vStr _ => true
  | .tStr, .vInt _ => false
  | .tStr, .vObj _ => false
  | .tComp members props, .vObj slots =>
      (slots.length == members.length) && AgreeProps props slots
  | .tComp _ _, .vInt _ => false
  | .tComp _ _, .vStr _ => false
termination_by ty _ => sizeOf ty
decreasing_by all_goals (simp_wf <;> omega)

def AgreeProps : List (String × Nat × Ty) → List Value → Bool
  | [], _ => true
  | (_, i, ty) :: rest, slots => Agree ty (getSlot slots i) && AgreeProps rest slots
termination_by props _ => sizeOf props
decreasing_by all_goals (simp_wf <;> omega)
end

mutual
/-- Field-for-field equality at a static type: leaves are compared by value,
composite values are compared on every field listed in the Property List,
recursively; members not listed are invisible to the framework. -/
def fieldEqB : Ty → Value → Value → Bool
  | .tInt, .vInt a, .vInt b => a == b
  | .tInt, _, _ => false
  | .tStr, .vStr a, .vStr b => a == b
  | .tStr, _, _ => false
  | .tComp _ props, .vObj as, .vObj bs => fieldEqProps props as bs
  | .tComp _ _, _, _ => false
termination_by ty _ _ => sizeOf ty
decreasing_by all_goals (simp_wf <;> omega)

def fieldEqProps : List (String × Nat × Ty) → List Value → List Value → Bool
  | [], _, _ => true
  | (_, i, ty) :: rest, as, bs =>
      fieldEqB ty (getSlot as i) (getSlot bs i) && fieldEqProps rest as bs
termination_by props _ _ => sizeOf props
decreasing_by all_goals (simp_wf <;> omega)
end

/-- Number of entries a JSON value holds under a key. -/
def countKeyJ (j : JSON) (k : String) : Nat :=
  match j with
  | .JObj es => (es.map fun e => e.1).count k
  | _ => 0

/-- Distinctness of the keys a JSON object holds (true of every storage the
framework builds, since keyed set overwrites an existing entry). -/
def NodupKeysJ : JSON → Prop
  | .JObj es => (es.map fun e => e.1).Nodup
  | _ => True

/-- The scenario type of the spec: `Point{x:int, y:int}` member types. -/
def pointMembers : List Ty := [.tInt, .tInt]

/-- The scenario Property List: `x` bound to member 0, `y` to member 1. -/
def pointProps : List (String × Nat × Ty) := [("x", 0, .tInt), ("y", 1, .tInt)]

/-- The scenario composite type `Point`. -/
def pointTy : Ty := .tComp pointMembers pointProps

/-- A `Point` value from its two coordinates. -/
def mkPoint (a b : Int) : Value := .vObj [.vInt a, .vInt b]

/-- The scenario type `Line{a:Point, b:Point}` member types. -/
def lineMembers : List Ty := [pointTy, pointTy]

/-- The scenario Property List: `a` bound to member 0, `b` to member 1. -/
def lineProps : List (String × Nat × Ty) :=
  [("a", 0, pointTy), ("b", 1, pointTy)]

/-- The scenario composite type `Line`. -/
def lineTy : Ty := .tComp lineMembers lineProps

/-- A `Line` value from its two points. -/
def mkLine (p q : Value) : Value := .vObj [p, q]

/-- A Property List with a duplicated name, binding `a` to member 0 and
again to member 1 (undefined-territory input used to settle the
duplicate-name claim). -/
def dupProps : List (String × Nat × Ty) := [("a", 0, .tInt), ("a", 1, .tInt)]


theorem lookupKey_setKey (es : List (String × JSON)) (k k' : String) (v : JSON) :
    lookupKey (setKey es k v) k' = if k' = k then some v else lookupKey es k' := by
  induction es with
  | nil =>
      rcases eq_or_ne k' k with rfl | h
      · simp [setKey, lookupKey]
      · simp [setKey, lookupKey, h, Ne.symm h]
  | cons e rest ih =>
      obtain ⟨a, b⟩ := e
      rcases eq_or_ne a k with rfl | hak
      · rcases eq_or_ne k' a with rfl | h
        · simp [setKey, lookupKey]
        · simp [setKey, lookupKey, h, Ne.symm h]
      · rcases eq_or_ne k' a with rfl | h
        · simp [setKey, lookupKey, hak, Ne.symm hak]
        · simp [setKey, lookupKey, hak, Ne.symm h, ih]

theorem jsonAt_jsonSet (j : JSON) (k k' : String) (v : JSON) :
    jsonAt (jsonSet j k v) k' = if k' = k then some v else jsonAt j k' := by
  cases j with
  | JObj es => simp [jsonSet, jsonAt, lookupKey_setKey]
  | JNull =>
      rcases eq_or_ne k' k with rfl | h
      · simp [jsonSet, jsonAt, lookupKey]
      · simp [jsonSet, jsonAt, lookupKey, h, Ne.symm h]
  | JInt n =>
      rcases eq_or_ne k' k with rfl | h
      · simp [jsonSet, jsonAt, lookupKey]
      · simp [jsonSet, jsonAt, lookupKey, h, Ne.symm h]
  | JStr s =>
      rcases eq_or_ne k' k with rfl | h
      · simp [jsonSet, jsonAt, lookupKey]
      · simp [jsonSet, jsonAt, lookupKey, h, Ne.symm h]

theorem jsonSet_isObj (j : JSON) (k : String) (v : JSON) :
    ∃ es, jsonSet j k v = .JObj es := by
  cases j <;> simp [jsonSet]

theorem getData_at_found (props : List (String × Nat × Ty)) (slots : List Value)
    (st : JSON) (name : String) (p : String × Nat × Ty)
    (h : props.find? (fun q => q.1 == name) = some p) :
    jsonAt (getData props slots st) name = some (storeVal p.2.2 (getSlot slots p.2.1)) := by
  induction props with
  | nil => simp [List.find?] at h
  | cons q rest ih =>
      obtain ⟨qn, qi, qt⟩ := q
      by_cases hq : qn = name
      · subst hq
        rw [List.find?_cons_of_pos _ (by simp)] at h
        cases h
        simp [getData, jsonAt_jsonSet]
      · rw [List.find?_cons_of_neg _ (by simp [hq])] at h
        simp [getData, jsonAt_jsonSet, Ne.symm hq, ih h]

theorem getData_keys (props : List (String × Nat × Ty)) (slots : List Value)
    (st : JSON) (k : String)
    (h : (jsonAt (getData props slots st) k).isSome = true) :
    k ∈ props.map (fun p => p.1) ∨ (jsonAt st k).isSome = true := by
  induction props with
  | nil => exact Or.inr (by simpa [getData] using h)
  | cons q rest ih =>
      obtain ⟨qn, qi, qt⟩ := q
      rcases eq_or_ne k qn with rfl | hk
      · simp
      · simp only [getData, jsonAt_jsonSet, if_neg hk] at h
        rcases ih h with hm | hs
        · exact Or.inl (by simpa using Or.inr (by simpa using hm))
        · exact Or.inr hs

theorem getData_present (props : List (String × Nat × Ty)) (slots : List Value)
    (st : JSON) (p : String × Nat × Ty) (hp : p ∈ props) :
    (jsonAt (getData props slots st) p.1).isSome = true := by
  induction props with
  | nil => simp at hp
  | cons q rest ih =>
      obtain ⟨qn, qi, qt⟩ := q
      rcases List.mem_cons.mp hp with rfl | hp'
      · simp [getData, jsonAt_jsonSet]
      · rcases eq_or_ne p.1 qn with he | hne
        · simp [getData, jsonAt_jsonSet, he]
        · simp only [getData, jsonAt_jsonSet, if_neg hne]
          exact ih hp'

theorem nodupB_cons [BEq α] (x : α) (l : List α) :
    nodupB (x :: l) = ((!l.contains x) && nodupB l) := rfl

theorem ne_of_contains_eq_false [BEq α] [LawfulBEq α] {l : List α} {a b : α}
    (h : l.contains a = false) (hb : b ∈ l) : b ≠ a := by
  have ha : a ∉ l := by simpa using h
  exact fun e => ha (e ▸ hb)

theorem find?_name_self {props : List (String × Nat × Ty)} {p : String × Nat × Ty}
    (hnd : nodupB (props.map fun q => q.1) = true) (hp : p ∈ props) :
    props.find? (fun q => q.1 == p.1) = some p := by
  induction props with
  | nil => simp at hp
  | cons q rest ih =>
      rw [List.map_cons, nodupB_cons, Bool.and_eq_true, Bool.not_eq_true'] at hnd
      rcases List.mem_cons.mp hp with rfl | hp'
      · exact List.find?_cons_of_pos _ (by simp)
      · have hne : p.1 ≠ q.1 :=
          ne_of_contains_eq_false hnd.1 (List.mem_map_of_mem _ hp')
        rw [List.find?_cons_of_neg _ (by simp [Ne.symm hne])]
        exact ih hnd.2 hp'

theorem defaultList_length (members : List Ty) :
    (defaultList members).length = members.length := by
  induction members with
  | nil => simp [defaultList]
  | cons t ts ih => simp [defaultList, ih]

theorem ty_sizeOf_pos (ty : Ty) : 0 < sizeOf ty := by
  cases ty <;> simp_arith

theorem sizeOf_ty_of_mem {p : String × Nat × Ty} {props : List (String × Nat × Ty)}
    (hp : p ∈ props) (members : List Ty) :
    sizeOf p.2.2 < sizeOf (Ty.tComp members props) := by
  have h1 : sizeOf p < sizeOf props := List.sizeOf_lt_of_mem hp
  obtain ⟨a, i, t⟩ := p
  simp only [Prod.mk.sizeOf_spec] at h1
  simp only [Ty.tComp.sizeOf_spec]
  omega

theorem WFTy_comp {members : List Ty} {props : List (String × Nat × Ty)}
    (h : WFTy (.tComp members props) = true) :
    props ≠ [] ∧ nodupB (props.map fun p => p.1) = true
      ∧ nodupB (props.map fun p => p.2.1) = true
      ∧ WFProps members.length props = true := by
  simp only [WFTy, Bool.and_eq_true, Bool.not_eq_true'] at h
  obtain ⟨⟨⟨h0, h1⟩, h2⟩, h3⟩ := h
  refine ⟨?_, h1, h2, h3⟩
  intro e
  subst e
  simp at h0

theorem WFProps_mem {n : Nat} {props : List (String × Nat × Ty)} {p : String × Nat × Ty}
    (h : WFProps n props = true) (hp : p ∈ props) :
    p.2.1 < n ∧ WFTy p.2.2 = true := by
  induction props with
  | nil => simp at hp
  | cons q rest ih =>
      obtain ⟨a, i, ty⟩ := q
      simp only [WFProps, Bool.and_eq_true, decide_eq_true_eq] at h
      obtain ⟨⟨h1, h2⟩, h3⟩ := h
      rcases List.mem_cons.mp hp with rfl | hp'
      · exact ⟨h1, h2⟩
      · exact ih h3 hp'

theorem AgreeProps_mem {props : List (String × Nat × Ty)} {slots : List Value}
    {p : String × Nat × Ty} (h : AgreeProps props slots = true) (hp : p ∈ props) :
    Agree p.2.2 (getSlot slots p.2.1) = true := by
  induction props with
  | nil => simp at hp
  | cons q rest ih =>
      obtain ⟨a, i, ty⟩ := q
      simp only [AgreeProps, Bool.and_eq_true] at h
      rcases List.mem_cons.mp hp with rfl | hp'
      · exact h.1
      · exact ih h.2 hp'

theorem fieldEqProps_iff {props : List (String × Nat × Ty)} {as bs : List Value} :
    fieldEqProps props as bs = true ↔
      ∀ p ∈ props, fieldEqB p.2.2 (getSlot as p.2.1) (getSlot bs p.2.1) = true := by
  induction props with
  | nil => simp [fieldEqProps]
  | cons q rest ih =>
      obtain ⟨a, i, ty⟩ := q
      simp [fieldEqProps, Bool.and_eq_true, ih, List.forall_mem_cons]

theorem setData_build (slots0 : List Value) (props : List (String × Nat × Ty)) :
    ∀ (st : JSON) (obj : List Value),
    (∀ p ∈ props, ∃ v, retrieveVal p.2.2 st p.1 = some v
        ∧ fieldEqB p.2.2 (getSlot slots0 p.2.1) v = true) →
    nodupB (props.map fun p => p.2.1) = true →
    (∀ p ∈ props, p.2.1 < obj.length) →
    ∃ obj', setData props st obj = some obj'
      ∧ obj'.length = obj.length
      ∧ (∀ p ∈ props, fieldEqB p.2.2 (getSlot slots0 p.2.1) (getSlot obj' p.2.1) = true)
      ∧ (∀ i, (∀ p ∈ props, p.2.1 ≠ i) → getSlot obj' i = getSlot obj i) := by
  induction props with
  | nil =>
      intro st obj _ _ _
      exact ⟨obj, by simp [setData], rfl, by simp, fun _ _ => rfl⟩
  | cons q rest ih =>
      intro st obj hret hnd hlen
      obtain ⟨qn, qi, qt⟩ := q
      rw [List.map_cons, nodupB_cons, Bool.and_eq_true, Bool.not_eq_true'] at hnd
      obtain ⟨obj1, hset1, hlen1, hfe1, hfr1⟩ :=
        ih st obj (fun p hp => hret p (List.mem_cons_of_mem _ hp)) hnd.2
          (fun p hp => hlen p (List.mem_cons_of_mem _ hp))
      obtain ⟨vq, hvq, hfq⟩ := hret (qn, qi, qt) (List.mem_cons_self _ _)
      refine ⟨setSlot obj1 qi vq, ?_, ?_, ?_, ?_⟩
      · simp [setData, hset1, hvq]
      · simp [setSlot, hlen1]
      · intro p hp
        rcases List.mem_cons.mp hp with rfl | hp'
        · have hqi : qi < obj1.length := by
            rw [hlen1]
            exact hlen _ (List.mem_cons_self _ _)
          simp only [getSlot, setSlot, List.getD_eq_getElem?_getD,
            List.getElem?_set_self hqi, Option.getD_some]
          simpa only [getSlot, List.getD_eq_getElem?_getD] using hfq
        · have hne : p.2.1 ≠ qi :=
            ne_of_contains_eq_false hnd.1 (List.mem_map_of_mem _ hp')
          simp only [getSlot, setSlot, List.getD_eq_getElem?_getD,
            List.getElem?_set_ne (Ne.symm hne)]
          simpa only [getSlot, List.getD_eq_getElem?_getD] using hfe1 p hp'
      · intro i hi
        have hqne : qi ≠ i := hi (qn, qi, qt) (List.mem_cons_self _ _)
        simp only [getSlot, setSlot, List.getD_eq_getElem?_getD,
          List.getElem?_set_ne hqne]
        simpa only [getSlot, List.getD_eq_getElem?_getD] using
          hfr1 i (fun p hp => hi p (List.mem_cons_of_mem _ hp))

theorem rtAux : ∀ (n : Nat) (ty : Ty), sizeOf ty ≤ n →
    ∀ v, WFTy ty = true → Agree ty v = true →
    ∃ w, jsonToVal ty (storeVal ty v) = some w ∧ fieldEqB ty v w = true := by
  intro n
  induction n with
  | zero =>
      intro ty hsz v _ _
      exact absurd hsz (by have := ty_sizeOf_pos ty; omega)
  | succ n ih =>
      intro ty hsz v hwf hag
      cases ty with
      | tInt =>
          cases v with
          | vInt m => exact ⟨.vInt m, by simp [storeVal, jsonToVal], by simp [fieldEqB]⟩
          | vStr s => simp [Agree] at hag
          | vObj s => simp [Agree] at hag
      | tStr =>
          cases v with
          | vStr s => exact ⟨.vStr s, by simp [storeVal, jsonToVal], by simp [fieldEqB]⟩
          | vInt m => simp [Agree] at hag
          | vObj s => simp [Agree] at hag
      | tComp members props =>
          cases v with
          | vInt m => simp [Agree] at hag
          | vStr s => simp [Agree] at hag
          | vObj slots =>
              obtain ⟨hne, hndn, hndm, hwfp⟩ := WFTy_comp hwf
              have hagp : AgreeProps props slots = true := by
                simp only [Agree, Bool.and_eq_true] at hag
                exact hag.2
              have hsz' : ∀ p ∈ props, sizeOf p.2.2 ≤ n := by
                intro p hp
                have := sizeOf_ty_of_mem hp members
                omega
              have hret : ∀ p ∈ props, ∃ w, retrieveVal p.2.2 (getData props slots .JNull) p.1 = some w
                  ∧ fieldEqB p.2.2 (getSlot slots p.2.1) w = true := by
                intro p hp
                have hat : jsonAt (getData props slots .JNull) p.1
                    = some (storeVal p.2.2 (getSlot slots p.2.1)) :=
                  getData_at_found props slots .JNull p.1 p (find?_name_self hndn hp)
                obtain ⟨w, hw, hfw⟩ := ih p.2.2 (hsz' p hp) (getSlot slots p.2.1)
                  (WFProps_mem hwfp hp).2 (AgreeProps_mem hagp hp)
                exact ⟨w, by simp [retrieveVal, hat, hw], hfw⟩
              have hlen : ∀ p ∈ props, p.2.1 < (defaultList members).length := by
                intro p hp
                rw [defaultList_length]
                exact (WFProps_mem hwfp hp).1
              obtain ⟨obj', hset, hlen', hfe, _⟩ :=
                setData_build slots props (getData props slots .JNull)
                  (defaultList members) hret hndm hlen
              refine ⟨.vObj obj', ?_, ?_⟩
              · simp [storeVal, slotsOf, jsonToVal, hset]
              · simp only [fieldEqB]
                exact fieldEqProps_iff.mpr hfe

theorem setData_none_of_missing {p : String × Nat × Ty} :
    ∀ (props : List (String × Nat × Ty)) (st : JSON) (obj : List Value),
    p ∈ props → jsonAt st p.1 = none → setData props st obj = none := by
  intro props
  induction props with
  | nil => intro st obj hp _; simp at hp
  | cons q rest ih =>
      intro st obj hp hmiss
      obtain ⟨qn, qi, qt⟩ := q
      rcases List.mem_cons.mp hp with rfl | hp'
      · have hr : retrieveVal qt st qn = none := by
          simp only at hmiss
          simp [retrieveVal, hmiss]
        cases hx : setData rest st obj <;> simp [setData, hx, hr]
      · simp [setData, ih st obj hp' hmiss]

theorem setData_spec : ∀ (props : List (String × Nat × Ty)) (st : JSON)
    (obj obj' : List Value),
    setData props st obj = some obj' →
    nodupB (props.map fun p => p.2.1) = true →
    (∀ p ∈ props, p.2.1 < obj.length) →
    obj'.length = obj.length
    ∧ (∀ p ∈ props, ∃ v, retrieveVal p.2.2 st p.1 = some v ∧ getSlot obj' p.2.1 = v)
    ∧ (∀ i, (∀ p ∈ props, p.2.1 ≠ i) → getSlot obj' i = getSlot obj i) := by
  intro props
  induction props with
  | nil =>
      intro st obj obj' h _ _
      simp only [setData, Option.some_inj] at h
      subst h
      exact ⟨rfl, by simp, fun _ _ => rfl⟩
  | cons q rest ih =>
      intro st obj obj' h hnd hb
      obtain ⟨qn, qi, qt⟩ := q
      simp only [setData, Option.bind_eq_some, Option.map_eq_some'] at h
      obtain ⟨obj1, hset1, v, hv, hobj⟩ := h
      subst hobj
      rw [List.map_cons, nodupB_cons, Bool.and_eq_true, Bool.not_eq_true'] at hnd
      obtain ⟨hl1, hfe1, hfr1⟩ :=
        ih st obj obj1 hset1 hnd.2 (fun p hp => hb p (List.mem_cons_of_mem _ hp))
      refine ⟨by simp [setSlot, hl1], ?_, ?_⟩
      · intro p hp
        rcases List.mem_cons.mp hp with rfl | hp'
        · refine ⟨v, hv, ?_⟩
          have hqi : qi < obj1.length := by
            rw [hl1]
            exact hb _ (List.mem_cons_self _ _)
          simp only [getSlot, setSlot, List.getD_eq_getElem?_getD,
            List.getElem?_set_self hqi, Option.getD_some]
        · obtain ⟨w, hw, hgw⟩ := hfe1 p hp'
          refine ⟨w, hw, ?_⟩
          have hne : p.2.1 ≠ qi :=
            ne_of_contains_eq_false hnd.1 (List.mem_map_of_mem _ hp')
          simp only [getSlot, setSlot, List.getD_eq_getElem?_getD,
            List.getElem?_set_ne (Ne.symm hne)]
          simpa only [getSlot, List.getD_eq_getElem?_getD] using hgw
      · intro i hi
        have hqne : qi ≠ i := hi _ (List.mem_cons_self _ _)
        simp only [getSlot, setSlot, List.getD_eq_getElem?_getD,
          List.getElem?_set_ne hqne]
        simpa only [getSlot, List.getD_eq_getElem?_getD] using
          hfr1 i (fun p hp => hi p (List.mem_cons_of_mem _ hp))

/-- Claim C1: for a well-formed composite type whose fields are ints,
strings or composites to arbitrary depth, deserializing the archive that
`serialize` produced into a default-constructed object yields a value
field-for-field equal to the original; equivalently, an archive-level
`store` followed by `retrieve` of the same name at the same type returns a
value field-for-field equal to the stored one. -/
theorem spp_C1 (members : List Ty) (props : List (String × Nat × Ty))
    (slots : List Value)
    (hWF : WFTy (.tComp members props) = true)
    (hAg : Agree (.tComp members props) (.vObj slots) = true) :
    (∃ slots2, deserialize props (serialize props slots) (defaultList members)
        = some (slots2, true) ∧ fieldEqProps props slots slots2 = true)
    ∧ (∀ st name, ∃ w,
        retrieveVal (.tComp members props)
            (archStore st name (.tComp members props) (.vObj slots)) name = some w
        ∧ fieldEqB (.tComp members props) (.vObj slots) w = true) := by
  obtain ⟨w, hw, hfw⟩ :=
    rtAux (sizeOf (Ty.tComp members props)) _ le_rfl (.vObj slots) hWF hAg
  constructor
  · rw [show storeVal (.tComp members props) (.vObj slots) = serialize props slots
        from by simp [storeVal, slotsOf, serialize]] at hw
    simp only [jsonToVal] at hw
    obtain ⟨slots2, hset, hws⟩ := Option.map_eq_some'.mp hw
    subst hws
    refine ⟨slots2, ?_, ?_⟩
    · simp [deserialize, hset]
    · simpa only [fieldEqB] using hfw
  · intro st name
    refine ⟨w, ?_, hfw⟩
    simp [archStore, retrieveVal, jsonAt_jsonSet, hw]

theorem spp_C1_witness :
    (∃ slots2, deserialize pointProps (serialize pointProps [Value.vInt 3, Value.vInt 4])
        (defaultList pointMembers) = some (slots2, true)
      ∧ fieldEqProps pointProps [Value.vInt 3, Value.vInt 4] slots2 = true)
    ∧ (∀ st name, ∃ w,
        retrieveVal (.tComp pointMembers pointProps)
            (archStore st name (.tComp pointMembers pointProps)
              (.vObj [Value.vInt 3, Value.vInt 4])) name = some w
        ∧ fieldEqB (.tComp pointMembers pointProps)
            (.vObj [Value.vInt 3, Value.vInt 4]) w = true) :=
  spp_C1 pointMembers pointProps [Value.vInt 3, Value.vInt 4]
    (by simp [WFTy, WFProps, nodupB, pointProps, pointMembers])
    (by simp [Agree, AgreeProps, getSlot, pointProps, pointMembers])

/-- Claim C9: whenever deserialize returns at all (no hard failure), its
boolean result is true; the returned bool never signals failure. -/
theorem spp_C9 (props : List (String × Nat × Ty)) (st : JSON) (obj : List Value)
    (r : List Value × Bool) (h : deserialize props st obj = some r) :
    r.2 = true := by
  simp only [deserialize, Option.map_eq_some'] at h
  obtain ⟨o, _, hr⟩ := h
  rw [← hr]

theorem spp_C9_witness :
    (([Value.vInt 3, Value.vInt 4], true) : List Value × Bool).2 = true :=
  spp_C9 pointProps (serialize pointProps [Value.vInt 3, Value.vInt 4])
    (defaultList pointMembers) ([Value.vInt 3, Value.vInt 4], true)
    (by simp [deserialize, setData, retrieveVal, jsonToVal, serialize, getData,
      storeVal, jsonSet, setKey, jsonAt, lookupKey, setSlot, getSlot,
      defaultList, defaultVal, pointProps, pointMembers])

/-- Claim C4: retrieving a name that was never stored fails through the
value-tree lookup (a hard failure, not a silent default), and that failure
propagates out of `setData` and `deserialize`. -/
theorem spp_C4 :
    (∀ (ty : Ty) (st : JSON) (name : String),
        jsonAt st name = none → retrieveVal ty st name = none)
    ∧ (∀ (props : List (String × Nat × Ty)) (st : JSON) (obj : List Value)
        (p : String × Nat × Ty), p ∈ props → jsonAt st p.1 = none →
        setData props st obj = none ∧ deserialize props st obj = none) := by
  constructor
  · intro ty st name h
    simp [retrieveVal, h]
  · intro props st obj p hp hmiss
    have hset := setData_none_of_missing props st obj hp hmiss
    exact ⟨hset, by simp [deserialize, hset]⟩

theorem spp_C4_witness :
    retrieveVal Ty.tInt (.JObj [("x", .JInt 1)]) "y" = none
    ∧ (setData pointProps (.JObj []) (defaultList pointMembers) = none
      ∧ deserialize pointProps (.JObj []) (defaultList pointMembers) = none) :=
  ⟨spp_C4.1 Ty.tInt (.JObj [("x", .JInt 1)]) "y" (by simp [jsonAt, lookupKey]),
   spp_C4.2 pointProps (.JObj []) (defaultList pointMembers) ("x", 0, Ty.tInt)
     (by simp [pointProps]) (by simp [jsonAt, lookupKey])⟩

/-- Claim C6: retrieve at a composite type constructs a default object and
runs deserialize on it against the nested archive found at the name,
returning the populated object; retrieve at a primitive type returns the
leaf value in the backend's native representation. -/
theorem spp_C6 :
    (∀ (members : List Ty) (props : List (String × Nat × Ty)) (st : JSON)
        (name : String) (sub : JSON), jsonAt st name = some sub →
        retrieveVal (.tComp members props) st name
          = (deserialize props sub (defaultList members)).map fun r => Value.vObj r.1)
    ∧ (∀ (st : JSON) (name : String) (n : Int),
        jsonAt st name = some (.JInt n) →
        retrieveVal .tInt st name = some (.vInt n))
    ∧ (∀ (st : JSON) (name : String) (s : String),
        jsonAt st name = some (.JStr s) →
        retrieveVal .tStr st name = some (.vStr s)) := by
  refine ⟨?_, ?_, ?_⟩
  · intro members props st name sub h
    simp only [retrieveVal, h, jsonToVal, deserialize, Option.map_map, Option.some_bind]
    rfl
  · intro st name n h
    simp [retrieveVal, h, jsonToVal]
  · intro st name s h
    simp [retrieveVal, h, jsonToVal]

theorem spp_C6_witness :
    retrieveVal (.tComp pointMembers pointProps)
        (.JObj [("p", .JObj [("x", .JInt 1), ("y", .JInt 2)])]) "p"
      = (deserialize pointProps (.JObj [("x", .JInt 1), ("y", .JInt 2)])
          (defaultList pointMembers)).map (fun r => Value.vObj r.1)
    ∧ retrieveVal .tInt (.JObj [("n", .JInt 5)]) "n" = some (.vInt 5)
    ∧ retrieveVal .tStr (.JObj [("s", .JStr "hi")]) "s" = some (.vStr "hi") :=
  ⟨spp_C6.1 pointMembers pointProps _ "p" _ (by simp [jsonAt, lookupKey]),
   spp_C6.2.1 _ "n" 5 (by simp [jsonAt, lookupKey]),
   spp_C6.2.2 _ "s" "hi" (by simp [jsonAt, lookupKey])⟩

/-- Claim C8: a successful deserialize overwrites every member listed in the
Property List with the value retrieved from the archive under that
descriptor's name, and leaves every member slot not listed unchanged. -/
theorem spp_C8 (props : List (String × Nat × Ty)) (st : JSON)
    (obj obj' : List Value) (b : Bool)
    (h : deserialize props st obj = some (obj', b))
    (hnd : nodupB (props.map fun p => p.2.1) = true)
    (hb : ∀ p ∈ props, p.2.1 < obj.length) :
    obj'.length = obj.length
    ∧ (∀ p ∈ props, ∃ v, retrieveVal p.2.2 st p.1 = some v ∧ getSlot obj' p.2.1 = v)
    ∧ (∀ i, (∀ p ∈ props, p.2.1 ≠ i) → getSlot obj' i = getSlot obj i) := by
  have hset : setData props st obj = some obj' := by
    simp only [deserialize, Option.map_eq_some'] at h
    obtain ⟨o, ho, hr⟩ := h
    obtain ⟨rfl, rfl⟩ := Prod.mk.injEq .. ▸ hr
    exact ho
  exact setData_spec props st obj obj' hset hnd hb

theorem spp_C8_witness :
    (([Value.vInt 7, Value.vInt 8] : List Value).length
        = ([Value.vInt 1, Value.vInt 2] : List Value).length)
    ∧ (∀ p ∈ pointProps, ∃ v,
        retrieveVal p.2.2 (.JObj [("x", .JInt 7), ("y", .JInt 8)]) p.1 = some v
        ∧ getSlot [Value.vInt 7, Value.vInt 8] p.2.1 = v)
    ∧ (∀ i, (∀ p ∈ pointProps, p.2.1 ≠ i) →
        getSlot [Value.vInt 7, Value.vInt 8] i = getSlot [Value.vInt 1, Value.vInt 2] i) :=
  spp_C8 pointProps (.JObj [("x", .JInt 7), ("y", .JInt 8)])
    [Value.vInt 1, Value.vInt 2] [Value.vInt 7, Value.vInt 8] true
    (by simp [deserialize, setData, retrieveVal, jsonToVal, jsonAt, lookupKey,
      setSlot, getSlot, pointProps])
    (by simp [nodupB, pointProps])
    (by simp [pointProps])

theorem keys_setKey (es : List (String × JSON)) (k : String) (v : JSON) :
    (setKey es k v).map (fun e => e.1)
      = if k ∈ es.map (fun e => e.1) then es.map (fun e => e.1)
        else es.map (fun e => e.1) ++ [k] := by
  induction es with
  | nil => simp [setKey]
  | cons e rest ih =>
      obtain ⟨a, b⟩ := e
      rcases eq_or_ne a k with rfl | hak
      · simp [setKey]
      · by_cases hk : k ∈ rest.map (fun e => e.1)
        · simp [setKey, hak, Ne.symm hak, ih, hk]
        · simp [setKey, hak, Ne.symm hak, ih, hk]

theorem nodupKeys_jsonSet (j : JSON) (k : String) (v : JSON)
    (h : NodupKeysJ j) : NodupKeysJ (jsonSet j k v) := by
  cases j with
  | JObj es =>
      simp only [NodupKeysJ, jsonSet] at *
      rw [keys_setKey]
      split
      · exact h
      · rename_i hk
        simp [List.nodup_append, h, hk]
  | JNull => simp [NodupKeysJ, jsonSet]
  | JInt n => simp [NodupKeysJ, jsonSet]
  | JStr s => simp [NodupKeysJ, jsonSet]

theorem nodupKeys_getData (props : List (String × Nat × Ty)) (slots : List Value)
    (st : JSON) (h : NodupKeysJ st) : NodupKeysJ (getData props slots st) := by
  induction props with
  | nil => simpa [getData]
  | cons q rest ih =>
      obtain ⟨a, i, t⟩ := q
      simp only [getData]
      exact nodupKeys_jsonSet _ _ _ ih

theorem mem_keys_of_lookup_isSome {es : List (String × JSON)} {k : String}
    (h : (lookupKey es k).isSome = true) : k ∈ es.map fun e => e.1 := by
  induction es with
  | nil => simp [lookupKey] at h
  | cons e rest ih =>
      obtain ⟨a, b⟩ := e
      rcases eq_or_ne a k with rfl | hak
      · simp
      · simp only [lookupKey, if_neg hak] at h
        simp [ih h]

theorem getData_isObj (props : List (String × Nat × Ty)) (slots : List Value)
    (st : JSON) (h : props ≠ []) : ∃ es, getData props slots st = .JObj es := by
  cases props with
  | nil => exact absurd rfl h
  | cons q rest =>
      obtain ⟨a, i, t⟩ := q
      simp only [getData]
      exact jsonSet_isObj _ _ _

/-- Claim C2 (amended): serialize visits the Property List descriptors in
reverse declared order — the template recursion runs from tuple index `N-1`
down to `0`, so the last-declared descriptor is stored first — and
deserialize retrieves and writes in the same reverse declared order; since
entries are keyed by name, addressability is unaffected. -/
theorem spp_C2 (props : List (String × Nat × Ty)) :
    getDataOrder props = (props.map fun p => p.1).reverse
    ∧ setDataOrder props = (props.map fun p => p.1).reverse := by
  induction props with
  | nil => simp [getDataOrder, setDataOrder]
  | cons q rest ih =>
      obtain ⟨a, i, t⟩ := q
      simp [getDataOrder, setDataOrder, ih.1, ih.2]

/-- Claim C2 counterexample: on the two-field Point Property List the store
(and retrieve) visitation order is not the declared order. -/
theorem spp_C2_cex :
    ¬ (getDataOrder pointProps = pointProps.map (fun p => p.1)
       ∧ setDataOrder pointProps = pointProps.map (fun p => p.1)) := by
  decide

/-- Claim C3: at an unwritable (respectively unreadable) path the source
still returns true from saveToFile and loadFromFile — the stream state is
never inspected, so the failed-boolean result the claim requires is never
produced; the write effect is lost (`none`). -/
theorem spp_C3_code :
    (saveToFile false (.JObj [("x", .JInt 3)])).2 = true
    ∧ (saveToFile false (.JObj [("x", .JInt 3)])).1 = none
    ∧ (loadFromFile false (.JObj [("x", .JInt 3)])).2 = true := by
  simp [saveToFile, loadFromFile]

/-- Claim C5: serializing a composite with a composite-typed field nests
that field's sub-archive as a JSON object under the field's key, with every
inner field present inside it, and the parent level holds no keys other
than the parent's declared names. -/
theorem spp_C5 (members : List Ty) (props : List (String × Nat × Ty))
    (slots : List Value) (name : String) (i : Nat)
    (members2 : List Ty) (props2 : List (String × Nat × Ty))
    (hWF : WFTy (.tComp members props) = true)
    (hp : (name, i, Ty.tComp members2 props2) ∈ props) :
    ∃ es, jsonAt (serialize props slots) name = some (.JObj es)
      ∧ (∀ q ∈ props2, (lookupKey es q.1).isSome = true)
      ∧ (∀ k, (jsonAt (serialize props slots) k).isSome = true →
          k ∈ props.map fun p => p.1) := by
  obtain ⟨hne, hndn, hndm, hwfp⟩ := WFTy_comp hWF
  have hat := getData_at_found props slots .JNull name _ (find?_name_self hndn hp)
  have hwf2 : WFTy (Ty.tComp members2 props2) = true := (WFProps_mem hwfp hp).2
  obtain ⟨hne2, -, -, -⟩ := WFTy_comp hwf2
  obtain ⟨es, hes⟩ := getData_isObj props2 (slotsOf (getSlot slots i)) .JNull hne2
  have hstore : storeVal (Ty.tComp members2 props2) (getSlot slots i) = .JObj es := by
    simp only [storeVal]
    exact hes
  refine ⟨es, ?_, ?_, ?_⟩
  · show jsonAt (getData props slots .JNull) name = some (.JObj es)
    rw [hat]
    exact congrArg some hstore
  · intro q hq
    have hpres := getData_present props2 (slotsOf (getSlot slots i)) .JNull q hq
    rw [hes] at hpres
    simpa [jsonAt] using hpres
  · intro k hk
    rcases getData_keys props slots .JNull k hk with hm | habs
    · exact hm
    · simp [jsonAt] at habs

theorem spp_C5_witness :
    ∃ es, jsonAt (serialize lineProps [mkPoint 1 2, mkPoint 3 4]) "a" = some (.JObj es)
      ∧ (∀ q ∈ pointProps, (lookupKey es q.1).isSome = true)
      ∧ (∀ k, (jsonAt (serialize lineProps [mkPoint 1 2, mkPoint 3 4]) k).isSome = true →
          k ∈ lineProps.map fun p => p.1) :=
  spp_C5 lineMembers lineProps [mkPoint 1 2, mkPoint 3 4] "a" 0 pointMembers pointProps
    (by simp [WFTy, WFProps, nodupB, lineProps, lineMembers, pointTy, pointProps,
      pointMembers])
    (by simp [lineProps, pointTy])

/-- Claim C7: the Point scenario serializes to the JSON object with exactly
the entries x:3 and y:4, the Line scenario nests a Point object under each
of a and b, and deserializing either archive reproduces the original field
values exactly. -/
theorem spp_C7 :
    (∃ es, serialize pointProps [Value.vInt 3, Value.vInt 4] = .JObj es
      ∧ es.length = 2 ∧ lookupKey es "x" = some (.JInt 3)
      ∧ lookupKey es "y" = some (.JInt 4))
    ∧ (∃ es ea eb, serialize lineProps [mkPoint 1 2, mkPoint 3 4] = .JObj es
      ∧ es.length = 2
      ∧ lookupKey es "a" = some (.JObj ea) ∧ lookupKey es "b" = some (.JObj eb)
      ∧ ea.length = 2 ∧ lookupKey ea "x" = some (.JInt 1)
      ∧ lookupKey ea "y" = some (.JInt 2)
      ∧ eb.length = 2 ∧ lookupKey eb "x" = some (.JInt 3)
      ∧ lookupKey eb "y" = some (.JInt 4))
    ∧ deserialize pointProps (serialize pointProps [Value.vInt 3, Value.vInt 4])
        (defaultList pointMembers) = some ([Value.vInt 3, Value.vInt 4], true)
    ∧ deserialize lineProps (serialize lineProps [mkPoint 1 2, mkPoint 3 4])
        (defaultList lineMembers) = some ([mkPoint 1 2, mkPoint 3 4], true) := by
  refine ⟨⟨[("y", .JInt 4), ("x", .JInt 3)], ?_, ?_, ?_, ?_⟩,
    ⟨[("b", .JObj [("y", .JInt 4), ("x", .JInt 3)]),
      ("a", .JObj [("y", .JInt 2), ("x", .JInt 1)])],
      [("y", .JInt 2), ("x", .JInt 1)], [("y", .JInt 4), ("x", .JInt 3)],
      ?_, ?_, ?_, ?_, ?_, ?_, ?_, ?_, ?_, ?_⟩, ?_, ?_⟩ <;>
    simp [serialize, getData, storeVal, jsonSet, setKey, getSlot, slotsOf,
      deserialize, setData, retrieveVal, jsonToVal, jsonAt, lookupKey, setSlot,
      defaultList, defaultVal, mkPoint, mkLine, pointProps, pointMembers,
      lineProps, lineMembers, pointTy]

/-- Claim C10: with a duplicated descriptor name the archive ends up with
exactly one entry under that name, holding the value read through the
earliest-declared descriptor with the name: stores run from the last tuple
index down to index 0, so the later store overwrites the earlier one under
the shared key. -/
theorem spp_C10 (props : List (String × Nat × Ty)) (slots : List Value)
    (name : String) (p : String × Nat × Ty)
    (h : props.find? (fun q => q.1 == name) = some p) :
    jsonAt (serialize props slots) name = some (storeVal p.2.2 (getSlot slots p.2.1))
    ∧ countKeyJ (serialize props slots) name = 1 := by
  refine ⟨getData_at_found props slots .JNull name p h, ?_⟩
  have hmem := List.mem_of_find?_eq_some h
  have hpn : p.1 = name := by simpa using List.find?_some h
  have hsome : (jsonAt (getData props slots .JNull) name).isSome = true := by
    rw [← hpn]
    exact getData_present props slots .JNull p hmem
  have hnd : NodupKeysJ (getData props slots .JNull) :=
    nodupKeys_getData props slots .JNull (by simp [NodupKeysJ])
  show countKeyJ (getData props slots .JNull) name = 1
  rcases hj : getData props slots .JNull with _ | n | s | es
  · rw [hj] at hsome; simp [jsonAt] at hsome
  · rw [hj] at hsome; simp [jsonAt] at hsome
  · rw [hj] at hsome; simp [jsonAt] at hsome
  · rw [hj] at hsome hnd
    have hk : name ∈ es.map fun e => e.1 :=
      mem_keys_of_lookup_isSome (by simpa [jsonAt] using hsome)
    simp only [countKeyJ, NodupKeysJ] at *
    exact List.count_eq_one_of_mem hnd hk

theorem spp_C10_witness :
    jsonAt (serialize dupProps [Value.vInt 7, Value.vInt 8]) "a"
      = some (storeVal Ty.tInt (getSlot [Value.vInt 7, Value.vInt 8] 0))
    ∧ countKeyJ (serialize dupProps [Value.vInt 7, Value.vInt 8]) "a" = 1 :=
  spp_C10 dupProps [Value.vInt 7, Value.vInt 8] "a" ("a", 0, Ty.tInt) (by rfl)
